import Mathlib

/-!
# Verification of `mixramp.c`

A shallow embedding of the MixRamp tag generator (`src/mixramp.c`) and proofs
of the specification's claims about it.

Modelling conventions:
* C `double` values (per-chunk loudness, timestamps, dB thresholds) are
  modelled as rationals (`ℚ`).  All the thresholds of the dB ladder are exact
  integers, and the claims under study are order/structure properties that are
  insensitive to floating-point rounding of the loudness values themselves.
* The per-chunk loudness values delivered by the external ReplayGain engine
  (`gain_analysis.c`, not under `src/`) are an arbitrary input list `vols`;
  the driver's own arithmetic is embedded faithfully.
* The `NAN` sentinel that marks an unset table row is modelled by `Option`:
  a row is `none` exactly when `start_time[i]`/`end_time[i]` is `NAN` in C.
  The C duplicate test `last_time == start_time[i] && last_db == start_db[i]`
  starts from `last_time = NAN`, which compares unequal to everything, so the
  initial "previous row" is modelled as `none` as well.
* Standard output is modelled as the list of characters the process writes.
-/

/- Note: `Rat.add`, `Rat.mul`, `Rat.inv` and `Rat.sub` are `@[irreducible]` in
Batteries, which blocks `decide` on concrete rational computations; restore
the default reducibility so that concrete runs of the embedded program can be
evaluated by the kernel. -/
set_option allowUnsafeReducibility true in
attribute [semireducible] Rat.mul Rat.inv Rat.sub Rat.add Rat.ofScientific

namespace Mixramp

/-- The dB ladder, from `static const double db[] = DBS` with
`#define DBS {-90,-60,-40,-30,-24,-21,-18,-15,-12, -9, -6, -3,  0,  3,  6}`. -/
def dbList : List ℚ := [-90, -60, -40, -30, -24, -21, -18, -15, -12, -9, -6, -3, 0, 3, 6]

/-- From `static const unsigned points = sizeof(db) / sizeof(db[0])` (= 15). -/
def points : ℕ := dbList.length

/-- The ladder as a function on indices, `db[i]`. -/
def db (i : Fin points) : ℚ := dbList.getD i.val 0

/-- From `static const double chunkSeconds = 0.10`. -/
def chunkSeconds : ℚ := 1 / 10

/-- The four table arrays `start_db`, `start_time`, `end_db`, `end_time`,
with a row `(observed_db, observed_time)` that is `none` while its `_time`
entry is still the `NAN` sentinel.  (`start_db`/`end_db` are initialised to
the ladder values in C, but they are only ever read after the corresponding
`_time` entry has been written, so the pair model is faithful.) -/
structure RampState where
  startTab : Fin points → Option (ℚ × ℚ)
  endTab : Fin points → Option (ℚ × ℚ)

/-- The initial tables: `#define TIMES {NAN, ...}`, every row unset. -/
def initState : RampState := ⟨fun _ => none, fun _ => none⟩

/-- The table-update part of `analyzeChunk` (mixramp.c lines 62-77): given the
chunk loudness `vol` (= `-GetTitleGain()`), the chunk start time and the padded
track length, write the start rows that are still unset and whose threshold is
reached, and rewrite every end row whose threshold is reached. -/
def analyzeChunk (vol chunkTime length : ℚ) (st : RampState) : RampState where
  startTab := fun i =>
    match st.startTab i with
    | some p => some p
    | none => if db i ≤ vol then some (vol, chunkTime) else none
  endTab := fun i => if db i ≤ vol then some (vol, length - chunkTime) else st.endTab i

/-- The chunk loop of `main` (lines 189-213): chunk `j` starts at time
`j * step` where `step = chunkSamples / sampleRate`, and its loudness is the
next element of `vols`. -/
def scanAux (length step : ℚ) : ℕ → List ℚ → RampState → RampState
  | _, [], st => st
  | j, v :: vs, st => scanAux length step (j + 1) vs (analyzeChunk v ((j : ℚ) * step) length st)

/-- Run the whole chunk loop from the initial state. -/
def runScan (length step : ℚ) (vols : List ℚ) : RampState :=
  scanAux length step 0 vols initState

/-- From `double length = frameCount / sampleRate + chunkSeconds` (line 143). -/
def trackLength (n r : ℚ) : ℚ := n / r + chunkSeconds

/-- From `chunkSamples = chunkSeconds * sampleRate` with the C conversion to
`size_t` (line 163), i.e. truncation of the product toward zero; for the
supported (non-negative) rates this is the floor.  At every supported sample
rate the IEEE-double product `0.10 * r` rounds to exactly the mathematical
value `r / 10` (at `r = 11025` the exact product is `1102.5 + 6.1e-14`, whose
nearest double is `1102.5`), so the rational floor below agrees with the
compiled C expression on the whole supported set. -/
def chunkSamples (r : ℚ) : ℤ := ⌊chunkSeconds * r⌋

/-- Modelled from the spec: the sample rates accepted by `InitGainAnalysis`
(`gain_analysis.c` is not under `src/`): 48000, 44100, 32000, 24000, 22050,
16000, 12000, 11025, 8000. -/
def supportedRates : List ℚ := [48000, 44100, 32000, 24000, 22050, 16000, 12000, 11025, 8000]

/-- The emission filter of `dumpRamps` (lines 89-94 and 101-106): scan the
rows in ladder order, skip unset rows, skip a row equal to the last emitted
one, otherwise emit it and remember it. -/
def emitRows : Option (ℚ × ℚ) → List (Option (ℚ × ℚ)) → List (ℚ × ℚ)
  | _, [] => []
  | prev, none :: rest => emitRows prev rest
  | prev, some p :: rest =>
    if prev = some p then emitRows prev rest else p :: emitRows (some p) rest

/-- The emitted rows of one table, in ladder order `i = 0 .. points-1`. -/
def tableRows (tab : Fin points → Option (ℚ × ℚ)) : List (ℚ × ℚ) :=
  emitRows none ((List.finRange points).map tab)

/-- The index and loudness of the first chunk whose loudness reaches `thr`. -/
def firstHit (thr : ℚ) : List ℚ → Option (ℕ × ℚ)
  | [] => none
  | v :: vs => if thr ≤ v then some (0, v) else (firstHit thr vs).map fun p => (p.1 + 1, p.2)

/-- The index and loudness of the last chunk whose loudness reaches `thr`. -/
def lastHit (thr : ℚ) : List ℚ → Option (ℕ × ℚ)
  | [] => none
  | v :: vs =>
    match lastHit thr vs with
    | some p => some (p.1 + 1, p.2)
    | none => if thr ≤ v then some (0, v) else none

/-- The row ordering that the emitted bodies satisfy: strictly increasing dB,
non-decreasing time. -/
def rowLt (p q : ℚ × ℚ) : Prop := p.1 < q.1 ∧ p.2 ≤ q.2

/-- Following the spec's words: `j` is the index of the last chunk of `vols`
whose loudness reaches `thr`. -/
def isLastHit (thr : ℚ) (vols : List ℚ) (j : ℕ) : Prop :=
  (∃ v, vols[j]? = some v ∧ thr ≤ v) ∧
    ∀ (j' : ℕ) (v' : ℚ), j < j' → vols[j']? = some v' → v' < thr

/-- Following the spec's words: `j` is the index of the first chunk of `vols`
whose loudness reaches `thr`. -/
def isFirstHit (thr : ℚ) (vols : List ℚ) (j : ℕ) : Prop :=
  (∃ v, vols[j]? = some v ∧ thr ≤ v) ∧
    ∀ (j' : ℕ) (v' : ℚ), j' < j → vols[j']? = some v' → v' < thr

/-- The decimal digit character for `n % 10`. -/
def digitChar (n : ℕ) : Char := Char.ofNat (48 + n % 10)

set_option linter.unusedVariables false in
/-- The decimal digits of a natural number, most significant first. -/
def natDigits (n : ℕ) : List Char :=
  if hlt : n < 10 then [digitChar n]
  else natDigits (n / 10) ++ [digitChar (n % 10)]
decreasing_by exact Nat.div_lt_self (by omega) (by norm_num)

/-- Models `printf("%.2f", x)`: round to centi-units, then print an optional sign,
the integer digits, a dot, and exactly two fractional digits.  (`printf`
rounds the binary double to even on exact ties; ties play no role in the
claims, so the rounding convention of `round` is immaterial.) -/
def fmt2 (q : ℚ) : List Char :=
  (if round (q * 100) < 0 then ['-'] else []) ++
    natDigits ((round (q * 100)).natAbs / 100) ++
    ['.', digitChar ((round (q * 100)).natAbs / 10), digitChar (round (q * 100)).natAbs]

/-- One emitted row, `printf("%.2f %.2f;", db, time)`. -/
def formatRow (p : ℚ × ℚ) : List Char := fmt2 p.1 ++ ' ' :: (fmt2 p.2 ++ [';'])

/-- The characters of one tag body. -/
def bodyChars (tab : Fin points → Option (ℚ × ℚ)) : List Char :=
  ((tableRows tab).map formatRow).flatten

/-- The characters printed by `dumpRamps()` (lines 82-108): the START line
then the END line, each closed by the `puts("")` newline. -/
def dumpRamps (st : RampState) : List Char :=
  "MIXRAMP_START=".data ++ bodyChars st.startTab ++ '\n' ::
    ("MIXRAMP_END=".data ++ bodyChars st.endTab ++ ['\n'])

/-- All of standard output on a successful run: the
`puts("MIXRAMP_REF=89.00")` line (line 185) followed by `dumpRamps()`. -/
def stdoutOf (st : RampState) : List Char :=
  "MIXRAMP_REF=89.00".data ++ '\n' :: dumpRamps st

/-- The outcome of one loop iteration's engine calls: a chunk loudness, a
failed `AnalyzeSamples()`, or `GAIN_NOT_ENOUGH_SAMPLES` from
`GetTitleGain()`. -/
inductive ChunkResult where
  | ok (vol : ℚ)
  | analyzeFail
  | notEnough
deriving DecidableEq

/-- The exit behaviour of the chunk loop (lines 40-56 and 189-213): the first
engine failure exits with code 1, otherwise the loop ends and `main` reaches
`exit(0)`. -/
def processChunks : List ChunkResult → ℕ
  | [] => 0
  | ChunkResult.ok _ :: rest => processChunks rest
  | ChunkResult.analyzeFail :: _ => 1
  | ChunkResult.notEnough :: _ => 1

/-- The exit-code skeleton of `main` (lines 111-219), in source order:
wrong argument count exits 1; a failed `afOpenFile` returns `errno`; a
channel count other than 1 or 2 exits 1; a rejected sample rate exits 1; a
failed `malloc` returns `errno`; then the loop runs and a clean pass exits
0. -/
def runMain (argc : ℕ) (openErrno : Option ℕ) (channelCount : ℤ) (rateOk : Bool)
    (mallocErrno : Option ℕ) (chunks : List ChunkResult) : ℕ :=
  if argc ≠ 2 then 1
  else
    match openErrno with
    | some e => e
    | none =>
      if channelCount ≠ 1 ∧ channelCount ≠ 2 then 1
      else if !rateOk then 1
      else
        match mallocErrno with
        | some e => e
        | none => processChunks chunks

theorem firstHit_get (thr : ℚ) :
    ∀ (vols : List ℚ) (p : ℕ × ℚ), firstHit thr vols = some p →
      vols[p.1]? = some p.2 ∧ thr ≤ p.2 := by
  intro vols
  induction vols with
  | nil => intro p h; simp [firstHit] at h
  | cons v vs ih =>
    intro p h
    by_cases hv : thr ≤ v
    · simp [firstHit, hv] at h
      subst h
      simpa using hv
    · simp [firstHit, hv] at h
      obtain ⟨q, qv, hq, rfl⟩ := h
      obtain ⟨h1, h2⟩ := ih (q, qv) hq
      exact ⟨by simpa using h1, h2⟩

theorem firstHit_min (thr : ℚ) :
    ∀ (vols : List ℚ) (j : ℕ) (v : ℚ), vols[j]? = some v → thr ≤ v →
      ∃ p, firstHit thr vols = some p ∧ p.1 ≤ j := by
  intro vols
  induction vols with
  | nil => intro j v h; simp at h
  | cons w vs ih =>
    intro j v hget hv
    by_cases hw : thr ≤ w
    · exact ⟨(0, w), by simp [firstHit, hw], Nat.zero_le _⟩
    · match j with
      | 0 =>
        simp at hget
        subst hget
        exact absurd hv hw
      | j + 1 =>
        simp at hget
        obtain ⟨p, hp, hle⟩ := ih j v hget hv
        exact ⟨(p.1 + 1, p.2), by simp [firstHit, hw, hp], Nat.succ_le_succ hle⟩

theorem firstHit_isFirst (thr : ℚ) :
    ∀ (vols : List ℚ) (p : ℕ × ℚ), firstHit thr vols = some p →
      ∀ (j : ℕ) (v : ℚ), j < p.1 → vols[j]? = some v → v < thr := by
  intro vols
  induction vols with
  | nil => intro p h; simp [firstHit] at h
  | cons w vs ih =>
    intro p hp j v hj hget
    by_cases hw : thr ≤ w
    · simp [firstHit, hw] at hp
      subst hp
      exact absurd hj (by simp)
    · simp [firstHit, hw] at hp
      obtain ⟨q, qv, hq, rfl⟩ := hp
      match j with
      | 0 =>
        simp at hget
        subst hget
        exact lt_of_not_le hw
      | j + 1 =>
        simp at hget
        exact ih (q, qv) hq j v (by simpa using hj) hget

theorem lastHit_get (thr : ℚ) :
    ∀ (vols : List ℚ) (p : ℕ × ℚ), lastHit thr vols = some p →
      vols[p.1]? = some p.2 ∧ thr ≤ p.2 := by
  intro vols
  induction vols with
  | nil => intro p h; simp [lastHit] at h
  | cons v vs ih =>
    intro p h
    rw [lastHit] at h
    rcases hvs : lastHit thr vs with - | q
    · rw [hvs] at h
      by_cases hv : thr ≤ v
      · simp [hv] at h
        subst h
        simpa using hv
      · simp [hv] at h
    · rw [hvs] at h
      simp at h
      subst h
      obtain ⟨h1, h2⟩ := ih q hvs
      exact ⟨by simpa using h1, h2⟩

theorem lastHit_max (thr : ℚ) :
    ∀ (vols : List ℚ) (j : ℕ) (v : ℚ), vols[j]? = some v → thr ≤ v →
      ∃ p, lastHit thr vols = some p ∧ j ≤ p.1 := by
  intro vols
  induction vols with
  | nil => intro j v h; simp at h
  | cons w vs ih =>
    intro j v hget hv
    match j with
    | 0 =>
      simp at hget
      rcases hvs : lastHit thr vs with - | q
      · exact ⟨(0, w), by rw [lastHit, hvs]; simp [hget ▸ hv], Nat.zero_le _⟩
      · exact ⟨(q.1 + 1, q.2), by rw [lastHit, hvs], Nat.zero_le _⟩
    | j + 1 =>
      simp at hget
      obtain ⟨p, hp, hle⟩ := ih j v hget hv
      exact ⟨(p.1 + 1, p.2), by rw [lastHit, hp], Nat.succ_le_succ hle⟩

theorem lastHit_none (thr : ℚ) :
    ∀ (vols : List ℚ), lastHit thr vols = none → ∀ v ∈ vols, v < thr := by
  intro vols
  induction vols with
  | nil => simp
  | cons w vs ih =>
    intro h v hv
    rw [lastHit] at h
    rcases hvs : lastHit thr vs with - | q
    · rw [hvs] at h
      by_cases hw : thr ≤ w
      · simp [hw] at h
      · rcases List.mem_cons.mp hv with rfl | hmem
        · exact lt_of_not_le hw
        · exact ih hvs v hmem
    · rw [hvs] at h
      simp at h

theorem lastHit_isLast (thr : ℚ) :
    ∀ (vols : List ℚ) (p : ℕ × ℚ), lastHit thr vols = some p →
      ∀ (j : ℕ) (v : ℚ), p.1 < j → vols[j]? = some v → v < thr := by
  intro vols
  induction vols with
  | nil => intro p h; simp [lastHit] at h
  | cons w vs ih =>
    intro p hp j v hj hget
    rw [lastHit] at hp
    rcases hvs : lastHit thr vs with - | q
    · rw [hvs] at hp
      by_cases hw : thr ≤ w
      · simp [hw] at hp
        subst hp
        match j with
        | 0 => exact absurd hj (by simp)
        | j + 1 =>
          simp at hget
          exact lastHit_none thr vs hvs v (List.getElem?_mem hget)
      · simp [hw] at hp
    · rw [hvs] at hp
      simp at hp
      subst hp
      match j with
      | 0 => exact absurd hj (by simp)
      | j + 1 =>
        simp at hget
        exact ih q hvs j v (Nat.lt_of_succ_lt_succ hj) hget

/-- A start row that is already set survives the rest of the scan untouched
(`if (isnan(start_time[i]) && ...)` never fires again). -/
theorem scanAux_startTab_some (L step : ℚ) :
    ∀ (vols : List ℚ) (j : ℕ) (st : RampState) (i : Fin points) (p : ℚ × ℚ),
      st.startTab i = some p → (scanAux L step j vols st).startTab i = some p := by
  intro vols
  induction vols with
  | nil => intro j st i p h; simpa [scanAux] using h
  | cons v vs ih =>
    intro j st i p h
    rw [scanAux]
    exact ih (j + 1) _ i p (by simp [analyzeChunk, h])

/-- Start-table characterisation: starting from an unset row, the scan leaves
exactly the loudness and start time of the first chunk that reaches the
threshold. -/
theorem scanAux_startTab_none (L step : ℚ) :
    ∀ (vols : List ℚ) (j : ℕ) (st : RampState) (i : Fin points),
      st.startTab i = none →
      (scanAux L step j vols st).startTab i =
        (firstHit (db i) vols).map fun q => (q.2, ((j : ℚ) + q.1) * step) := by
  intro vols
  induction vols with
  | nil => intro j st i h; simpa [scanAux, firstHit] using h
  | cons v vs ih =>
    intro j st i h
    rw [scanAux]
    by_cases hv : db i ≤ v
    · rw [scanAux_startTab_some L step vs (j + 1) _ i ((v, (j : ℚ) * step))
        (by simp [analyzeChunk, h, hv])]
      simp [firstHit, hv]
    · rw [ih (j + 1) _ i (by simp [analyzeChunk, h, hv])]
      rw [firstHit]
      simp only [if_neg hv, Option.map_map]
      rcases firstHit (db i) vs with - | q
      · rfl
      · simp only [Option.map_some', Function.comp, Option.some.injEq, Prod.mk.injEq]
        exact ⟨trivial, by push_cast; ring⟩

/-- End-table characterisation, no-hit case: the scan leaves the row alone. -/
theorem scanAux_endTab_none (L step : ℚ) :
    ∀ (vols : List ℚ) (j : ℕ) (st : RampState) (i : Fin points),
      lastHit (db i) vols = none →
      (scanAux L step j vols st).endTab i = st.endTab i := by
  intro vols
  induction vols with
  | nil => intro j st i _; simp [scanAux]
  | cons v vs ih =>
    intro j st i h
    rw [lastHit] at h
    rcases hvs : lastHit (db i) vs with - | q
    · rw [hvs] at h
      by_cases hv : db i ≤ v
      · simp [hv] at h
      · rw [scanAux, ih (j + 1) _ i hvs]
        simp [analyzeChunk, hv]
    · rw [hvs] at h
      simp at h

/-- End-table characterisation: after the scan the row holds the loudness of
the last chunk that reached the threshold, and the padded length minus that
chunk's start time (the row is rewritten by every qualifying chunk). -/
theorem scanAux_endTab_some (L step : ℚ) :
    ∀ (vols : List ℚ) (j : ℕ) (st : RampState) (i : Fin points) (q : ℕ × ℚ),
      lastHit (db i) vols = some q →
      (scanAux L step j vols st).endTab i = some (q.2, L - ((j : ℚ) + q.1) * step) := by
  intro vols
  induction vols with
  | nil => intro j st i q h; simp [lastHit] at h
  | cons v vs ih =>
    intro j st i q h
    rw [lastHit] at h
    rcases hvs : lastHit (db i) vs with - | q'
    · rw [hvs] at h
      by_cases hv : db i ≤ v
      · simp [hv] at h
        subst h
        rw [scanAux, scanAux_endTab_none L step vs (j + 1) _ i hvs]
        simp [analyzeChunk, hv]
      · simp [hv] at h
    · rw [hvs] at h
      simp at h
      subst h
      rw [scanAux, ih (j + 1) _ i q' hvs]
      simp only [Option.some.injEq, Prod.mk.injEq]
      exact ⟨trivial, by push_cast; ring⟩

/-- Final start table of a full run. -/
theorem runScan_startTab (L step : ℚ) (vols : List ℚ) (i : Fin points) :
    (runScan L step vols).startTab i =
      (firstHit (db i) vols).map fun q => (q.2, (q.1 : ℚ) * step) := by
  rw [runScan, scanAux_startTab_none L step vols 0 initState i rfl]
  rcases firstHit (db i) vols with - | q
  · rfl
  · simp

/-- Final end table of a full run, no-hit case. -/
theorem runScan_endTab_none (L step : ℚ) (vols : List ℚ) (i : Fin points)
    (h : lastHit (db i) vols = none) : (runScan L step vols).endTab i = none := by
  rw [runScan, scanAux_endTab_none L step vols 0 initState i h]
  rfl

/-- Final end table of a full run, hit case. -/
theorem runScan_endTab_some (L step : ℚ) (vols : List ℚ) (i : Fin points) (q : ℕ × ℚ)
    (h : lastHit (db i) vols = some q) :
    (runScan L step vols).endTab i = some (q.2, L - (q.1 : ℚ) * step) := by
  rw [runScan, scanAux_endTab_some L step vols 0 initState i q h]
  norm_num

/-- The dB ladder is strictly increasing. -/
theorem db_strictMono : ∀ i j : Fin points, i < j → db i < db j := by decide

/-- `-90` (= `L[0]`) is the least ladder value. -/
theorem db_ge_bot : ∀ i : Fin points, (-90 : ℚ) ≤ db i := by decide

/-- If the set rows form a chain of "equal or increasing" steps, the emission
filter (which drops unset rows and duplicates of the last emitted row) outputs
a chain of strictly increasing steps, headed by a row above `p`. -/
theorem emitRows_chain_some (R : ℚ × ℚ → ℚ × ℚ → Prop) :
    ∀ (rows : List (Option (ℚ × ℚ))) (p : ℚ × ℚ),
      List.Chain (fun a b => a = b ∨ R a b) p (rows.filterMap id) →
      List.Chain' R (emitRows (some p) rows) ∧
        ∀ q, (emitRows (some p) rows).head? = some q → R p q := by
  intro rows
  induction rows with
  | nil =>
    intro p _
    exact ⟨List.chain'_nil, fun q hq => by simp [emitRows] at hq⟩
  | cons o rest ih =>
    intro p h
    match o with
    | none =>
      rw [show emitRows (some p) (none :: rest) = emitRows (some p) rest from rfl]
      exact ih p h
    | some s =>
      have h2 : List.Chain (fun a b => a = b ∨ R a b) p (s :: rest.filterMap id) := h
      rw [List.chain_cons] at h2
      obtain ⟨hps, hrest⟩ := h2
      by_cases heq : p = s
      · rw [show emitRows (some p) (some s :: rest) =
            if some p = some s then emitRows (some p) rest
            else s :: emitRows (some s) rest from rfl]
        rw [if_pos (by rw [heq])]
        exact ih p (heq ▸ hrest)
      · rw [show emitRows (some p) (some s :: rest) =
            if some p = some s then emitRows (some p) rest
            else s :: emitRows (some s) rest from rfl]
        rw [if_neg (by simpa using heq)]
        obtain ⟨hc, hh⟩ := ih s hrest
        refine ⟨List.chain'_cons'.mpr ⟨fun y hy => hh y (by simpa using hy), hc⟩, ?_⟩
        intro q hq
        simp at hq
        subst hq
        exact hps.resolve_left heq

/-- Top-level form of the previous lemma, from the initial `NAN` "previous
row" state. -/
theorem emitRows_chain (R : ℚ × ℚ → ℚ × ℚ → Prop) :
    ∀ (rows : List (Option (ℚ × ℚ))),
      List.Chain' (fun a b => a = b ∨ R a b) (rows.filterMap id) →
      List.Chain' R (emitRows none rows) := by
  intro rows
  induction rows with
  | nil => intro _; exact List.chain'_nil
  | cons o rest ih =>
    intro h
    match o with
    | none =>
      rw [show emitRows none (none :: rest) = emitRows none rest from rfl]
      exact ih h
    | some s =>
      rw [show emitRows none (some s :: rest) =
          if (none : Option (ℚ × ℚ)) = some s then emitRows none rest
          else s :: emitRows (some s) rest from rfl]
      rw [if_neg (by simp)]
      have h' : List.Chain (fun a b => a = b ∨ R a b) s (rest.filterMap id) := h
      obtain ⟨hc, hh⟩ := emitRows_chain_some R rest s h'
      exact List.chain'_cons'.mpr ⟨fun y hy => hh y (by simpa using hy), hc⟩

/-- If no row of the table is set, nothing is emitted. -/
theorem emitRows_all_none :
    ∀ (rows : List (Option (ℚ × ℚ))) (prev : Option (ℚ × ℚ)),
      (∀ o ∈ rows, o = none) → emitRows prev rows = [] := by
  intro rows
  induction rows with
  | nil => intro prev _; rfl
  | cons o rest ih =>
    intro prev h
    have ho : o = none := h o (List.mem_cons_self o rest)
    subst ho
    exact ih prev fun o' ho' => h o' (List.mem_cons_of_mem _ ho')

/-- Any two set start rows at increasing ladder indices are equal or ordered
by `rowLt`: the dB values of distinct rows strictly increase and the times
never decrease. -/
theorem startTab_rel (L step : ℚ) (hs : 0 ≤ step) (vols : List ℚ)
    (i i' : Fin points) (hii : i < i') (p p' : ℚ × ℚ)
    (hp : (runScan L step vols).startTab i = some p)
    (hp' : (runScan L step vols).startTab i' = some p') :
    p = p' ∨ rowLt p p' := by
  rw [runScan_startTab] at hp hp'
  rcases hfa : firstHit (db i) vols with - | a
  · rw [hfa] at hp; cases hp
  rcases hfa' : firstHit (db i') vols with - | a'
  · rw [hfa'] at hp'; cases hp'
  rw [hfa] at hp
  rw [hfa'] at hp'
  simp at hp hp'
  obtain ⟨hget', hthr'⟩ := firstHit_get (db i') vols a' hfa'
  obtain ⟨hget, hthr⟩ := firstHit_get (db i) vols a hfa
  have hdb : db i < db i' := db_strictMono i i' hii
  obtain ⟨b, hb, hble⟩ := firstHit_min (db i) vols a'.1 a'.2 hget' (le_trans hdb.le hthr')
  rw [hfa] at hb
  cases hb
  subst hp
  subst hp'
  rcases Nat.lt_or_ge a.1 a'.1 with hlt | hge
  · right
    have hva : a.2 < db i' := by
      by_contra hcon
      push_neg at hcon
      obtain ⟨c, hc, hcle⟩ := firstHit_min (db i') vols a.1 a.2 hget hcon
      rw [hfa'] at hc
      cases hc
      omega
    refine ⟨lt_of_lt_of_le hva hthr', ?_⟩
    show (a.1 : ℚ) * step ≤ (a'.1 : ℚ) * step
    exact mul_le_mul_of_nonneg_right (by exact_mod_cast hlt.le) hs
  · left
    have h1 : a.1 = a'.1 := le_antisymm hble hge
    have hv : a.2 = a'.2 := by
      rw [h1] at hget
      rw [hget] at hget'
      exact Option.some.inj hget'
    rw [h1, hv]

/-- Any two set end rows at increasing ladder indices are equal or ordered by
`rowLt`. -/
theorem endTab_rel (L step : ℚ) (hs : 0 ≤ step) (vols : List ℚ)
    (i i' : Fin points) (hii : i < i') (p p' : ℚ × ℚ)
    (hp : (runScan L step vols).endTab i = some p)
    (hp' : (runScan L step vols).endTab i' = some p') :
    p = p' ∨ rowLt p p' := by
  rcases hfa : lastHit (db i) vols with - | a
  · rw [runScan_endTab_none L step vols i hfa] at hp; cases hp
  rcases hfa' : lastHit (db i') vols with - | a'
  · rw [runScan_endTab_none L step vols i' hfa'] at hp'; cases hp'
  rw [runScan_endTab_some L step vols i a hfa] at hp
  rw [runScan_endTab_some L step vols i' a' hfa'] at hp'
  simp at hp hp'
  obtain ⟨hget', hthr'⟩ := lastHit_get (db i') vols a' hfa'
  obtain ⟨hget, hthr⟩ := lastHit_get (db i) vols a hfa
  have hdb : db i < db i' := db_strictMono i i' hii
  obtain ⟨b, hb, hble⟩ := lastHit_max (db i) vols a'.1 a'.2 hget' (le_trans hdb.le hthr')
  rw [hfa] at hb
  cases hb
  subst hp
  subst hp'
  rcases Nat.lt_or_ge a'.1 a.1 with hlt | hge
  · right
    have hva : a.2 < db i' := by
      by_contra hcon
      push_neg at hcon
      obtain ⟨c, hc, hcle⟩ := lastHit_max (db i') vols a.1 a.2 hget hcon
      rw [hfa'] at hc
      cases hc
      omega
    refine ⟨lt_of_lt_of_le hva hthr', ?_⟩
    show L - (a.1 : ℚ) * step ≤ L - (a'.1 : ℚ) * step
    have hmul : (a'.1 : ℚ) * step ≤ (a.1 : ℚ) * step :=
      mul_le_mul_of_nonneg_right (by exact_mod_cast hlt.le) hs
    linarith
  · left
    have h1 : a.1 = a'.1 := le_antisymm hge hble
    have hv : a.2 = a'.2 := by
      rw [h1] at hget
      rw [hget] at hget'
      exact Option.some.inj hget'
    rw [h1, hv]

/-- If any two set rows of a table at increasing ladder indices are equal or
`rowLt`-related, then the emitted rows are pairwise `rowLt`-related. -/
theorem tableRows_pairwise_of_rel (tab : Fin points → Option (ℚ × ℚ))
    (hrel : ∀ (i i' : Fin points), i < i' → ∀ p p', tab i = some p → tab i' = some p' →
      p = p' ∨ rowLt p p') :
    List.Pairwise rowLt (tableRows tab) := by
  letI : IsTrans (ℚ × ℚ) rowLt :=
    ⟨fun a b c h1 h2 => ⟨h1.1.trans h2.1, h1.2.trans h2.2⟩⟩
  rw [tableRows, ← List.chain'_iff_pairwise]
  apply emitRows_chain
  apply List.Pairwise.chain'
  rw [List.pairwise_filterMap, List.pairwise_map]
  refine (List.pairwise_lt_finRange points).imp ?_
  intro i i' hii b hb b' hb'
  exact hrel i i' hii b b' (Option.mem_def.mp hb) (Option.mem_def.mp hb')

/-- C4: for any two rows `(d1, t1)` before `(d2, t2)` emitted in the
MIXRAMP_START body, the dB values strictly increase (`d2 > d1`) and the times
are non-decreasing (`t2 ≥ t1`), for every run of the scan with non-negative
chunk step. -/
theorem mixrampStart_monotone (L step : ℚ) (hs : 0 ≤ step) (vols : List ℚ) :
    List.Pairwise (fun p q : ℚ × ℚ => p.1 < q.1 ∧ p.2 ≤ q.2)
      (tableRows (runScan L step vols).startTab) :=
  tableRows_pairwise_of_rel _ fun i i' hii p p' hp hp' =>
    startTab_rel L step hs vols i i' hii p p' hp hp'

/-- Witness for C4 at a concrete input: two chunks of loudness −50 then 0,
step 0.1 s. -/
theorem mixrampStart_monotone_wit :
    0 ≤ (1 : ℚ) / 10 ∧
      List.Pairwise (fun p q : ℚ × ℚ => p.1 < q.1 ∧ p.2 ≤ q.2)
        (tableRows (runScan (3/10) (1/10) [-50, 0]).startTab) :=
  ⟨by norm_num, mixrampStart_monotone (3/10) (1/10) (by norm_num) [-50, 0]⟩

/-- C1, counterexample: a track whose loudness falls from 0 dB to −50 dB
emits the MIXRAMP_END rows `(-50.00, 0.20); (0.00, 0.30)` — the dB values
increase but the times increase as well, refuting `t2 ≤ t1`. -/
theorem mixrampEnd_counterexample :
    tableRows (runScan (3/10) (1/10) [0, -50]).endTab = [(-50, 1/5), (0, 3/10)] ∧
      ¬ List.Pairwise (fun p q : ℚ × ℚ => p.1 < q.1 ∧ q.2 ≤ p.2)
          (tableRows (runScan (3/10) (1/10) [0, -50]).endTab) := by
  decide

/-- C1, amended: for any two rows `(d1, t1)` before `(d2, t2)` emitted in the
MIXRAMP_END body, `d2 > d1` and `t2 ≥ t1` (the time measured from the end of
the padded track grows as the thresholds rise, because higher thresholds are
last reached by earlier chunks). -/
theorem mixrampEnd_monotone (L step : ℚ) (hs : 0 ≤ step) (vols : List ℚ) :
    List.Pairwise (fun p q : ℚ × ℚ => p.1 < q.1 ∧ p.2 ≤ q.2)
      (tableRows (runScan L step vols).endTab) :=
  tableRows_pairwise_of_rel _ fun i i' hii p p' hp hp' =>
    endTab_rel L step hs vols i i' hii p p' hp hp'

/-- Witness for the amended C1 at a concrete input. -/
theorem mixrampEnd_monotone_wit :
    0 ≤ (1 : ℚ) / 10 ∧
      List.Pairwise (fun p q : ℚ × ℚ => p.1 < q.1 ∧ p.2 ≤ q.2)
        (tableRows (runScan (3/10) (1/10) [0, -50]).endTab) :=
  ⟨by norm_num, mixrampEnd_monotone (3/10) (1/10) (by norm_num) [0, -50]⟩

/-- C2, counterexample: 10-second track at 44100 Hz (100 chunks of 0.1 s),
silent (−120 dB) for the first 50 chunks and at full-scale-sine loudness
(+6.5 dB) thereafter.  The first emitted MIXRAMP_START entry has time exactly
5.00 as claimed, but the first emitted MIXRAMP_END entry has time 0.20
(= 10.10 − 9.90, from the *last* qualifying chunk), not ≈ 5.10. -/
theorem scenario10s_counterexample :
    (tableRows (runScan (trackLength 441000 44100) (1/10)
        (List.replicate 50 (-120) ++ List.replicate 50 (13/2))).startTab).head? =
      some (13/2, 5) ∧
    (tableRows (runScan (trackLength 441000 44100) (1/10)
        (List.replicate 50 (-120) ++ List.replicate 50 (13/2))).endTab).head? =
      some (13/2, 1/5) ∧
    ¬ ((5 : ℚ) ≤ 1/5) := by
  decide

/-- C2, amended: in the 10-second half-silent scenario the first emitted
MIXRAMP_START entry has time 5.00 and the first emitted MIXRAMP_END entry has
time 0.20; moreover the body of each tag is that single entry. -/
theorem scenario10s_amended :
    tableRows (runScan (trackLength 441000 44100) (1/10)
        (List.replicate 50 (-120) ++ List.replicate 50 (13/2))).startTab =
      [(13/2, 5)] ∧
    tableRows (runScan (trackLength 441000 44100) (1/10)
        (List.replicate 50 (-120) ++ List.replicate 50 (13/2))).endTab =
      [(13/2, 1/5)] := by
  decide

/-- C3: a set end row `E[i] = (d, t)` after the scan has `d ≥ db i`, `d` the
loudness of the last chunk that reached `db i`, and `t = T - t_j` where `t_j`
is that chunk's start time and `T = n / r + chunkSeconds` is the padded track
length. -/
theorem mixrampEnd_row_spec (n r step : ℚ) (vols : List ℚ) (i : Fin points) (d t : ℚ)
    (h : (runScan (trackLength n r) step vols).endTab i = some (d, t)) :
    db i ≤ d ∧ ∃ j, isLastHit (db i) vols j ∧ vols[j]? = some d ∧
      t = trackLength n r - (j : ℚ) * step := by
  rcases hl : lastHit (db i) vols with - | q
  · rw [runScan_endTab_none _ _ _ _ hl] at h
    cases h
  · rw [runScan_endTab_some _ _ _ _ _ hl] at h
    simp only [Option.some.injEq, Prod.mk.injEq] at h
    obtain ⟨hd, ht⟩ := h
    obtain ⟨hget, hthr⟩ := lastHit_get _ _ _ hl
    subst hd
    refine ⟨hthr, q.1, ⟨⟨q.2, hget, hthr⟩, ?_⟩, hget, ht.symm⟩
    exact fun j' v' hj hget' => lastHit_isLast _ _ _ hl j' v' hj hget'

/-- Witness for C3: one chunk of loudness 5 on a track of 4410 frames at
44100 Hz. -/
theorem mixrampEnd_row_spec_wit :
    db ⟨0, by decide⟩ ≤ 5 ∧ ∃ j, isLastHit (db ⟨0, by decide⟩) [(5 : ℚ)] j ∧
      [(5 : ℚ)][j]? = some 5 ∧ (1/5 : ℚ) = trackLength 4410 44100 - (j : ℚ) * (1/10) :=
  mixrampEnd_row_spec 4410 44100 (1/10) [5] ⟨0, by decide⟩ 5 (1/5) (by decide)

/-- C5, counterexample: the driver computes `chunkSamples` by C truncation of
`chunkSeconds * sampleRate`; at 11025 Hz this yields ⌊1102.5⌋ = 1102, while
the claimed `round(Δ·r)` is 1103. -/
theorem chunkSamples_counterexample :
    chunkSamples 11025 = 1102 ∧ round (chunkSeconds * (11025 : ℚ)) = 1103 ∧
      (1102 : ℤ) ≠ 1103 := by
  decide

/-- C5, amended: the chunk size is the floor (truncation) of `Δ · r`, which
agrees with `round (Δ · r)` at every supported sample rate except 11025 Hz,
where it is 1102. -/
theorem chunkSamples_amended :
    (∀ r ∈ supportedRates, r ≠ 11025 → chunkSamples r = round (chunkSeconds * r)) ∧
      chunkSamples 11025 = 1102 := by
  constructor
  · intro r hr hne
    simp only [supportedRates, List.mem_cons, List.not_mem_nil, or_false] at hr
    rcases hr with rfl | rfl | rfl | rfl | rfl | rfl | rfl | rfl | rfl <;>
      first
      | decide
      | exact absurd rfl hne
  · decide

/-- Witness for the amended C5 at 48000 Hz. -/
theorem chunkSamples_amended_wit :
    chunkSamples 48000 = round (chunkSeconds * (48000 : ℚ)) :=
  chunkSamples_amended.1 48000 (by decide) (by decide)

theorem digitChar_ne_newline (n : ℕ) : digitChar n ≠ '\n' := by
  unfold digitChar
  have h : n % 10 < 10 := Nat.mod_lt _ (by norm_num)
  generalize n % 10 = m at h
  interval_cases m <;> decide

theorem digitChar_isDigit (n : ℕ) : (digitChar n).isDigit = true := by
  unfold digitChar
  have h : n % 10 < 10 := Nat.mod_lt _ (by norm_num)
  generalize n % 10 = m at h
  interval_cases m <;> decide

theorem natDigits_ne_newline (n : ℕ) : '\n' ∉ natDigits n := by
  induction n using Nat.strong_induction_on with
  | _ n ih =>
    rw [natDigits]
    split
    · intro hmem
      simp only [List.mem_singleton] at hmem
      exact digitChar_ne_newline n hmem.symm
    · intro hmem
      rcases List.mem_append.mp hmem with hm | hm
      · exact ih (n / 10) (Nat.div_lt_self (by omega) (by norm_num)) hm
      · simp only [List.mem_singleton] at hm
        exact digitChar_ne_newline _ hm.symm

theorem fmt2_ne_newline (q : ℚ) : '\n' ∉ fmt2 q := by
  rw [fmt2]
  intro hmem
  rcases List.mem_append.mp hmem with hm | hm
  · rcases List.mem_append.mp hm with h1 | h2
    · revert h1
      split <;> decide
    · exact natDigits_ne_newline _ h2
  · simp only [List.mem_cons, List.not_mem_nil, or_false] at hm
    rcases hm with h | h | h
    · exact absurd h (by decide)
    · exact digitChar_ne_newline _ h.symm
    · exact digitChar_ne_newline _ h.symm

theorem bodyChars_ne_newline (tab : Fin points → Option (ℚ × ℚ)) :
    '\n' ∉ bodyChars tab := by
  rw [bodyChars]
  intro hmem
  rcases List.mem_flatten.mp hmem with ⟨l, hl, hin⟩
  rcases List.mem_map.mp hl with ⟨p, -, rfl⟩
  rw [formatRow] at hin
  rcases List.mem_append.mp hin with h1 | h2
  · exact fmt2_ne_newline _ h1
  · simp only [List.mem_cons] at h2
    rcases h2 with h | h
    · exact absurd h (by decide)
    · rcases List.mem_append.mp h with h' | h'
      · exact fmt2_ne_newline _ h'
      · simp only [List.mem_singleton] at h'
        exact absurd h' (by decide)

/-- C6: (1) once a start row is set, no continuation of the scan rewrites it;
(2) a set start row holds a loudness ≥ its threshold and the start time of
the first chunk whose loudness reached the threshold; (3) an end row is
rewritten by every qualifying chunk, whatever it held before. -/
theorem start_write_once (L step : ℚ) (vols : List ℚ) (i : Fin points) :
    (∀ (j : ℕ) (st : RampState) (p : ℚ × ℚ), st.startTab i = some p →
        (scanAux L step j vols st).startTab i = some p) ∧
    (∀ d t, (runScan L step vols).startTab i = some (d, t) →
        db i ≤ d ∧ ∃ j, isFirstHit (db i) vols j ∧ vols[j]? = some d ∧
          t = (j : ℚ) * step) ∧
    (∀ (st : RampState) (vol ct : ℚ), db i ≤ vol →
        (analyzeChunk vol ct L st).endTab i = some (vol, L - ct)) := by
  refine ⟨fun j st p hp => scanAux_startTab_some L step vols j st i p hp, ?_, ?_⟩
  · intro d t h
    rw [runScan_startTab] at h
    rcases hf : firstHit (db i) vols with - | q
    · rw [hf] at h
      cases h
    · rw [hf] at h
      simp only [Option.map_some', Option.some.injEq, Prod.mk.injEq] at h
      obtain ⟨hd, ht⟩ := h
      obtain ⟨hget, hthr⟩ := firstHit_get _ _ _ hf
      subst hd
      refine ⟨hthr, q.1, ⟨⟨q.2, hget, hthr⟩, ?_⟩, hget, ht.symm⟩
      exact fun j' v' hj hget' => firstHit_isFirst _ _ _ hf j' v' hj hget'
  · intro st vol ct hvol
    simp [analyzeChunk, hvol]

/-- Witness for C6: a pre-set start row survives a further silent chunk. -/
theorem start_write_once_wit :
    (scanAux 1 (1/10) 7 [(-300 : ℚ)]
        ⟨fun _ => some (2, 3), fun _ => none⟩).startTab ⟨0, by decide⟩ = some (2, 3) :=
  (start_write_once 1 (1/10) [(-300 : ℚ)] ⟨0, by decide⟩).1 7
    ⟨fun _ => some (2, 3), fun _ => none⟩ (2, 3) rfl

/-- C7: if every chunk's loudness is strictly below −90 dB (in particular if
there are no chunks at all), both bodies are empty, and the three output
lines are still emitted. -/
theorem silent_output (L step : ℚ) (vols : List ℚ) (h : ∀ v ∈ vols, v < -90) :
    bodyChars (runScan L step vols).startTab = [] ∧
    bodyChars (runScan L step vols).endTab = [] ∧
    stdoutOf (runScan L step vols) =
      "MIXRAMP_REF=89.00".data ++ '\n' ::
        ("MIXRAMP_START=".data ++ '\n' :: ("MIXRAMP_END=".data ++ ['\n'])) := by
  have hstart : ∀ i : Fin points, (runScan L step vols).startTab i = none := by
    intro i
    rw [runScan_startTab]
    rcases hf : firstHit (db i) vols with - | q
    · rfl
    · obtain ⟨hget, hthr⟩ := firstHit_get _ _ _ hf
      have := h q.2 (List.getElem?_mem hget)
      exact absurd (lt_of_lt_of_le this (db_ge_bot i)) (not_lt.mpr hthr)
  have hend : ∀ i : Fin points, (runScan L step vols).endTab i = none := by
    intro i
    rcases hf : lastHit (db i) vols with - | q
    · exact runScan_endTab_none L step vols i hf
    · obtain ⟨hget, hthr⟩ := lastHit_get _ _ _ hf
      have := h q.2 (List.getElem?_mem hget)
      exact absurd (lt_of_lt_of_le this (db_ge_bot i)) (not_lt.mpr hthr)
  have hrs : tableRows (runScan L step vols).startTab = [] := by
    apply emitRows_all_none
    intro o ho
    rcases List.mem_map.mp ho with ⟨i, -, rfl⟩
    exact hstart i
  have hre : tableRows (runScan L step vols).endTab = [] := by
    apply emitRows_all_none
    intro o ho
    rcases List.mem_map.mp ho with ⟨i, -, rfl⟩
    exact hend i
  refine ⟨by rw [bodyChars, hrs]; rfl, by rw [bodyChars, hre]; rfl, ?_⟩
  rw [stdoutOf, dumpRamps, bodyChars, bodyChars, hrs, hre]
  rfl

/-- Witness for C7: a one-chunk track at −100 dB. -/
theorem silent_output_wit :
    bodyChars (runScan 1 (1/10) [(-100 : ℚ)]).startTab = [] ∧
    bodyChars (runScan 1 (1/10) [(-100 : ℚ)]).endTab = [] ∧
    stdoutOf (runScan 1 (1/10) [(-100 : ℚ)]) =
      "MIXRAMP_REF=89.00".data ++ '\n' ::
        ("MIXRAMP_START=".data ++ '\n' :: ("MIXRAMP_END=".data ++ ['\n'])) :=
  silent_output 1 (1/10) [(-100 : ℚ)] (by intro v hv; simp at hv; rw [hv]; norm_num)

/-- C8: standard output is exactly three newline-terminated lines, REF then
START then END; the first is the constant `MIXRAMP_REF=89.00` whatever the
tables hold; neither body contains a newline; and every row is printed as
the dB value and the time, each with exactly two fractional digits, separated
by one space and closed by a semicolon with no space before it. -/
theorem stdout_three_lines (st : RampState) :
    stdoutOf st =
      "MIXRAMP_REF=89.00".data ++ '\n' ::
        (("MIXRAMP_START=".data ++ bodyChars st.startTab) ++ '\n' ::
          (("MIXRAMP_END=".data ++ bodyChars st.endTab) ++ ['\n'])) ∧
    (stdoutOf st).count '\n' = 3 ∧
    '\n' ∉ "MIXRAMP_REF=89.00".data ∧
    '\n' ∉ "MIXRAMP_START=".data ++ bodyChars st.startTab ∧
    '\n' ∉ "MIXRAMP_END=".data ++ bodyChars st.endTab ∧
    ∀ p : ℚ × ℚ,
      formatRow p = fmt2 p.1 ++ ' ' :: (fmt2 p.2 ++ [';']) ∧
      (∃ pre a b, fmt2 p.1 = pre ++ ['.', a, b] ∧ a.isDigit = true ∧ b.isDigit = true) ∧
      (∃ pre a b, fmt2 p.2 = pre ++ ['.', a, b] ∧ a.isDigit = true ∧ b.isDigit = true) := by
  have hshape : stdoutOf st =
      "MIXRAMP_REF=89.00".data ++ '\n' ::
        (("MIXRAMP_START=".data ++ bodyChars st.startTab) ++ '\n' ::
          (("MIXRAMP_END=".data ++ bodyChars st.endTab) ++ ['\n'])) := by
    rw [stdoutOf, dumpRamps]
  have hb1 : '\n' ∉ "MIXRAMP_START=".data ++ bodyChars st.startTab := by
    intro hm
    rcases List.mem_append.mp hm with h | h
    · revert h
      decide
    · exact bodyChars_ne_newline _ h
  have hb2 : '\n' ∉ "MIXRAMP_END=".data ++ bodyChars st.endTab := by
    intro hm
    rcases List.mem_append.mp hm with h | h
    · revert h
      decide
    · exact bodyChars_ne_newline _ h
  refine ⟨hshape, ?_, by decide, hb1, hb2, ?_⟩
  · have h0 : List.count '\n' "MIXRAMP_REF=89.00".data = 0 := by decide
    have h1 : List.count '\n' "MIXRAMP_START=".data = 0 := by decide
    have h2 : List.count '\n' "MIXRAMP_END=".data = 0 := by decide
    have h3 := List.count_eq_zero.mpr (bodyChars_ne_newline st.startTab)
    have h4 := List.count_eq_zero.mpr (bodyChars_ne_newline st.endTab)
    rw [hshape]
    simp [List.count_append, List.count_cons_self, h0, h1, h2, h3, h4]
  · intro p
    refine ⟨rfl, ?_, ?_⟩
    · exact ⟨(if round (p.1 * 100) < 0 then ['-'] else []) ++
          natDigits ((round (p.1 * 100)).natAbs / 100),
        digitChar ((round (p.1 * 100)).natAbs / 10), digitChar (round (p.1 * 100)).natAbs,
        by rw [fmt2, List.append_assoc], digitChar_isDigit _, digitChar_isDigit _⟩
    · exact ⟨(if round (p.2 * 100) < 0 then ['-'] else []) ++
          natDigits ((round (p.2 * 100)).natAbs / 100),
        digitChar ((round (p.2 * 100)).natAbs / 10), digitChar (round (p.2 * 100)).natAbs,
        by rw [fmt2, List.append_assoc], digitChar_isDigit _, digitChar_isDigit _⟩

theorem processChunks_fail :
    ∀ chunks : List ChunkResult,
      ChunkResult.analyzeFail ∈ chunks ∨ ChunkResult.notEnough ∈ chunks →
      processChunks chunks = 1 := by
  intro chunks
  induction chunks with
  | nil => intro h; rcases h with h | h <;> cases h
  | cons c rest ih =>
    intro h
    match c with
    | ChunkResult.ok v =>
      rw [processChunks]
      apply ih
      rcases h with h | h
      · rcases List.mem_cons.mp h with h' | h'
        · cases h'
        · exact Or.inl h'
      · rcases List.mem_cons.mp h with h' | h'
        · cases h'
        · exact Or.inr h'
    | ChunkResult.analyzeFail => rfl
    | ChunkResult.notEnough => rfl

theorem processChunks_ok :
    ∀ chunks : List ChunkResult,
      (∀ c ∈ chunks, ∃ v, c = ChunkResult.ok v) → processChunks chunks = 0 := by
  intro chunks
  induction chunks with
  | nil => intro _; rfl
  | cons c rest ih =>
    intro h
    obtain ⟨v, rfl⟩ := h c (List.mem_cons_self c rest)
    rw [processChunks]
    exact ih fun c' hc' => h c' (List.mem_cons_of_mem _ hc')

/-- C9: the process exits 0 on a clean pass; 1 on wrong argument count, on a
channel count outside {1, 2}, on a sample rate the loudness engine rejects,
and on loudness-engine misuse (a failed analysis or too few samples per
chunk); and it returns the system error number when the input file cannot be
opened. -/
theorem exit_codes (argc : ℕ) (openErrno : Option ℕ) (channelCount : ℤ) (rateOk : Bool)
    (mallocErrno : Option ℕ) (chunks : List ChunkResult) :
    (argc ≠ 2 → runMain argc openErrno channelCount rateOk mallocErrno chunks = 1) ∧
    (∀ e, argc = 2 → openErrno = some e →
      runMain argc openErrno channelCount rateOk mallocErrno chunks = e) ∧
    (argc = 2 → openErrno = none → channelCount ≠ 1 → channelCount ≠ 2 →
      runMain argc openErrno channelCount rateOk mallocErrno chunks = 1) ∧
    (argc = 2 → openErrno = none → (channelCount = 1 ∨ channelCount = 2) →
      rateOk = false →
      runMain argc openErrno channelCount rateOk mallocErrno chunks = 1) ∧
    (argc = 2 → openErrno = none → (channelCount = 1 ∨ channelCount = 2) →
      rateOk = true → mallocErrno = none →
      ChunkResult.analyzeFail ∈ chunks ∨ ChunkResult.notEnough ∈ chunks →
      runMain argc openErrno channelCount rateOk mallocErrno chunks = 1) ∧
    (argc = 2 → openErrno = none → (channelCount = 1 ∨ channelCount = 2) →
      rateOk = true → mallocErrno = none →
      (∀ c ∈ chunks, ∃ v, c = ChunkResult.ok v) →
      runMain argc openErrno channelCount rateOk mallocErrno chunks = 0) := by
  refine ⟨?_, ?_, ?_, ?_, ?_, ?_⟩
  · intro h
    simp [runMain, h]
  · intro e h2 hopen
    subst h2
    subst hopen
    simp [runMain]
  · intro h2 hopen hc1 hc2
    subst h2
    subst hopen
    simp [runMain, hc1, hc2]
  · intro h2 hopen hch hrate
    subst h2
    subst hopen
    subst hrate
    rcases hch with h | h <;> simp [runMain, h]
  · intro h2 hopen hch hrate hmalloc hfail
    subst h2
    subst hopen
    subst hrate
    subst hmalloc
    rcases hch with h | h <;> simp [runMain, h, processChunks_fail chunks hfail]
  · intro h2 hopen hch hrate hmalloc hok
    subst h2
    subst hopen
    subst hrate
    subst hmalloc
    rcases hch with h | h <;> simp [runMain, h, processChunks_ok chunks hok]

/-- Witness for C9: one clean mono run and one failed-open run. -/
theorem exit_codes_wit :
    runMain 2 none 1 true none [ChunkResult.ok 5] = 0 ∧
      runMain 2 (some 13) 1 true none [] = 13 :=
  ⟨(exit_codes 2 none 1 true none [ChunkResult.ok 5]).2.2.2.2.2 rfl rfl (Or.inl rfl)
      rfl rfl (by intro c hc; simp at hc; exact ⟨5, hc⟩),
    (exit_codes 2 (some 13) 1 true none []).2.1 13 rfl rfl⟩

/-- C10: set rows are downward closed along the ladder at every prefix of the
scan, with start times non-decreasing and end times non-decreasing in the
ladder index.  (Every intermediate state of the loop is the final state of
the scan on a prefix `vols.take m`.) -/
theorem tables_downward (L step : ℚ) (hs : 0 ≤ step) (vols : List ℚ)
    (i i' : Fin points) (hii : i < i') (m : ℕ) :
    (∀ p, (runScan L step (vols.take m)).startTab i' = some p →
        ∃ q, (runScan L step (vols.take m)).startTab i = some q ∧ q.2 ≤ p.2) ∧
    (∀ p, (runScan L step (vols.take m)).endTab i' = some p →
        ∃ q, (runScan L step (vols.take m)).endTab i = some q ∧ q.2 ≤ p.2) := by
  have hdb : db i ≤ db i' := (db_strictMono i i' hii).le
  constructor
  · intro p hp
    rw [runScan_startTab] at hp
    rcases hf' : firstHit (db i') (vols.take m) with - | a'
    · rw [hf'] at hp
      cases hp
    · rw [hf'] at hp
      simp only [Option.map_some', Option.some.injEq] at hp
      obtain ⟨hget', hthr'⟩ := firstHit_get _ _ _ hf'
      obtain ⟨b, hb, hble⟩ :=
        firstHit_min (db i) (vols.take m) a'.1 a'.2 hget' (le_trans hdb hthr')
      refine ⟨(b.2, (b.1 : ℚ) * step), ?_, ?_⟩
      · rw [runScan_startTab, hb]
        rfl
      · rw [← hp]
        exact mul_le_mul_of_nonneg_right (by exact_mod_cast hble) hs
  · intro p hp
    rcases hf' : lastHit (db i') (vols.take m) with - | a'
    · rw [runScan_endTab_none _ _ _ _ hf'] at hp
      cases hp
    · rw [runScan_endTab_some _ _ _ _ _ hf'] at hp
      simp only [Option.some.injEq] at hp
      obtain ⟨hget', hthr'⟩ := lastHit_get _ _ _ hf'
      obtain ⟨b, hb, hble⟩ :=
        lastHit_max (db i) (vols.take m) a'.1 a'.2 hget' (le_trans hdb hthr')
      refine ⟨(b.2, L - (b.1 : ℚ) * step), runScan_endTab_some _ _ _ _ _ hb, ?_⟩
      rw [← hp]
      have : (a'.1 : ℚ) * step ≤ (b.1 : ℚ) * step :=
        mul_le_mul_of_nonneg_right (by exact_mod_cast hble) hs
      show L - (b.1 : ℚ) * step ≤ L - (a'.1 : ℚ) * step
      linarith

/-- Witness for C10: thresholds −90 and −60 on a one-chunk track of loudness
0. -/
theorem tables_downward_wit :
    (∀ p, (runScan 1 (1/10) ([(0 : ℚ)].take 1)).startTab ⟨1, by decide⟩ = some p →
        ∃ q, (runScan 1 (1/10) ([(0 : ℚ)].take 1)).startTab ⟨0, by decide⟩ = some q ∧
          q.2 ≤ p.2) ∧
    (∀ p, (runScan 1 (1/10) ([(0 : ℚ)].take 1)).endTab ⟨1, by decide⟩ = some p →
        ∃ q, (runScan 1 (1/10) ([(0 : ℚ)].take 1)).endTab ⟨0, by decide⟩ = some q ∧
          q.2 ≤ p.2) :=
  tables_downward 1 (1/10) (by norm_num) [(0 : ℚ)] ⟨0, by decide⟩ ⟨1, by decide⟩
    (by decide) 1

end Mixramp
